import Mathlib

/-!
Verification of the `shi` repository's layered-scope parameter resolution
engine (`src/shi/arrg.py`) and the CLI value conversion (`src/shi/cli.py`).

Python runtime values are modelled by the inductive type `Value`; Python
dictionaries (which are insertion-ordered with unique keys) are modelled by
association lists `Dict` with first-match lookup, in-place update on existing
keys and append on fresh keys, exactly matching the observable behaviour of
`d[k]`, `k in d` and `d | d2`.

The stack-introspection helpers of `arrg.py` (`get_frames`) are modelled by
passing the list of (non-wrapper) caller frames explicitly, each frame being
its dictionary of bindings; `get_locals` / `get_globals` then perform exactly
the merge of lines 84-106 of `arrg.py` (later, i.e. nearer, frames override
earlier ones; private names are filtered out per frame).
-/

/-- Floating point results of Python's `float(str)` conversion, modelled
symbolically: a finite rational value, a signed infinity, or a NaN. -/
inductive FloatV where
  | finite (q : Rat)
  | inf (neg : Bool)
  | nan
deriving DecidableEq

/-- A Python runtime value, as far as the claims need to distinguish them:
`None`, booleans, integers, floats, strings and lists. -/
inductive Value where
  | none
  | bool (b : Bool)
  | int (n : Int)
  | float (f : FloatV)
  | str (s : String)
  | list (elems : List Value)

/-- A Python `dict` with `String` keys, as an insertion-ordered association
list with unique keys (the uniqueness invariant `dNodup` is stated separately
and assumed where a proof needs it). -/
abbrev Dict := List (String × Value)

/-- Lookup `d[k]` / `d.get(k)`: the first entry with the given key. -/
def dGet : Dict → String → Option Value
  | [], _ => Option.none
  | (k₁, v) :: t, k => if k₁ = k then some v else dGet t k

/-- Membership test `k in d`. -/
def dHas (d : Dict) (k : String) : Bool :=
  (dGet d k).isSome

/-- Assignment `d[k] = v`: updates the existing entry in place, or appends a
new entry, exactly as a Python dict does. -/
def dIns (d : Dict) (k : String) (v : Value) : Dict :=
  if dHas d k then d.map (fun kv => if kv.1 = k then (k, v) else kv)
  else d ++ [(k, v)]

/-- Dict union `a | b` (also `a.update(b)`): entries of `b` override entries
of `a`; iteration order is `a`'s keys first, then `b`'s fresh keys, as in
Python. -/
def dMerge (a b : Dict) : Dict :=
  b.foldl (fun acc kv => dIns acc kv.1 kv.2) a

/-- The keys of a dict, in order. -/
def dKeys (d : Dict) : List String :=
  d.map Prod.fst

/-- The Python dict invariant: keys are unique. -/
def dNodup (d : Dict) : Prop :=
  (dKeys d).Nodup

instance (d : Dict) : Decidable (dNodup d) := by
  unfold dNodup; infer_instance

/-- `arrg.is_private` (arrg.py lines 10-14): a key is private when it starts
with an underscore (`key.startswith("_")`). -/
def is_private (k : String) : Bool :=
  match k.data with
  | '_' :: _ => true
  | _ => false

/-- `arrg.filter_privates` (arrg.py lines 30-34): drop underscore-prefixed
keys. -/
def filter_privates (d : Dict) : Dict :=
  d.filter (fun kv => !is_private kv.1)

/-- `arrg.get_locals` (arrg.py lines 84-94): merge the local bindings of the
caller frames (given nearest-first, wrapper frames already skipped as
`get_frames` does); later (nearer) frames override earlier ones, private
names are dropped per frame. -/
def get_locals (frames : List Dict) : Dict :=
  frames.reverse.foldl (fun acc f => dMerge acc (filter_privates f)) []

/-- `arrg.get_globals` (arrg.py lines 97-106): the same merge over the
frames' global bindings. -/
def get_globals (frames : List Dict) : Dict :=
  frames.reverse.foldl (fun acc f => dMerge acc (filter_privates f)) []

/-- `inspect.Parameter.kind` values. -/
inductive PKind where
  | posOnly
  | posOrKw
  | varPos
  | kwOnly
  | varKw
deriving DecidableEq

/-- One formal parameter of a wrapped callable: its name, kind, and declared
default (`Option.none` models `inspect.Parameter.empty`). -/
structure Param where
  name : String
  kind : PKind
  default : Option Value

/-- A parameter that can receive a positional argument (arrg.py lines
155-159 and 169-172). -/
def posCapable (p : Param) : Prop :=
  p.kind = PKind.posOnly ∨ p.kind = PKind.posOrKw

instance (p : Param) : Decidable (posCapable p) := by
  unfold posCapable; infer_instance

/-- `max_pos_args` (arrg.py lines 152-160): the number of positional-capable
parameters. -/
def maxPosCount (sig : List Param) : Nat :=
  sig.countP (fun p => decide (posCapable p))

/-- `key in sig.parameters`: the signature declares a parameter of this
name. -/
def sigHas (sig : List Param) (k : String) : Bool :=
  sig.any (fun p => decide (p.name = k))

/-- The positional-binding loop (arrg.py lines 167-173):
`for param, arg in zip(sig.parameters.values(), args)` assigning each
positional-capable parameter its zipped argument. -/
def posGo : Dict → List Param → List Value → Dict
  | res, _, [] => res
  | res, [], _ => res
  | res, p :: ps, a :: as =>
      posGo (if posCapable p then dIns res p.name a else res) ps as

/-- The resolved arguments after the positional-binding loop, starting from
the empty `resolved_args` dict. -/
def posBind (sig : List Param) (args : List Value) : Dict :=
  posGo [] sig args

/-- The keyword loop (arrg.py lines 175-182): for each supplied keyword,
skip it if already bound positionally, bind it if it names a declared
parameter, and otherwise record it in `extra_kwargs`. -/
def kwGo (sig : List Param) : Dict → Dict → List (String × Value) → Dict × Dict
  | res, ex, [] => (res, ex)
  | res, ex, (k, v) :: rest =>
      if dHas res k then kwGo sig res ex rest
      else if sigHas sig k then kwGo sig (dIns res k v) ex rest
      else kwGo sig res (dIns ex k v) rest

/-- The scope-chain part of the fill loop (arrg.py lines 200-211, steps 5-8
of the decorator's docstring): caller locals, then the function's globals,
then caller globals, then `None`. -/
def scopeValue (cl fg cg : Dict) (k : String) : Value :=
  match dGet cl k with
  | some v => v
  | Option.none =>
      match dGet fg k with
      | some v => v
      | Option.none =>
          match dGet cg k with
          | some v => v
          | Option.none => Value.none

/-- The value the fill loop (arrg.py lines 193-211) assigns to a
still-unbound parameter: parent extra arguments, then the declared default,
then the scope chain. -/
def fillValue (pe cl fg cg : Dict) (p : Param) : Value :=
  match dGet pe p.name with
  | some v => v
  | Option.none =>
      match p.default with
      | some d => d
      | Option.none => scopeValue cl fg cg p.name

/-- The fill loop itself (arrg.py lines 184-211): walk the signature in
declaration order, skip parameters already resolved and the variadic ones,
and bind every other parameter to its `fillValue`. -/
def fillGo (pe cl fg cg : Dict) : Dict → List Param → Dict
  | res, [] => res
  | res, p :: ps =>
      fillGo pe cl fg cg
        (if dHas res p.name then res
         else if p.kind = PKind.varPos ∨ p.kind = PKind.varKw then res
         else dIns res p.name (fillValue pe cl fg cg p)) ps

/-- `kwargs = parent_context.extra_kwargs | kwargs` (arrg.py line 146):
explicitly supplied keywords override inherited extras. -/
def mergedKwargs (pe kwargs : Dict) : Dict :=
  dMerge pe kwargs

/-- The state after the positional and keyword loops: the partially resolved
arguments and this call's own `extra_kwargs`. -/
def afterKeywords (sig : List Param) (args : List Value) (kwargs pe : Dict) :
    Dict × Dict :=
  kwGo sig (posBind sig args) [] (mergedKwargs pe kwargs)

/-- The fully resolved argument mapping produced by `wrapper` (arrg.py lines
140-212): positionals, then keywords (with inherited extras merged in), then
the fill loop.  The function's globals are filtered of private names, as
done once at decoration time (arrg.py line 137). -/
def resolvedOf (sig : List Param) (fgRaw : Dict) (args : List Value)
    (kwargs cl cg pe : Dict) : Dict :=
  fillGo pe cl (filter_privates fgRaw) cg (afterKeywords sig args kwargs pe).1 sig

/-- This call's `extra_kwargs`: the supplied keywords (inherited extras
included) that match no declared parameter.  They become the
`__arrg_context__` handed to nested resolved calls (arrg.py line 220). -/
def extrasOf (sig : List Param) (args : List Value) (kwargs pe : Dict) : Dict :=
  (afterKeywords sig args kwargs pe).2

/-- The arity failure raised at arrg.py lines 161-165, carrying the maximum
and the actual count of positional arguments. -/
inductive ArrgError where
  | tooManyPositional (maxPos actual : Nat)
deriving DecidableEq

/-- The outcome of a successful resolution: the resolved argument mapping
(as of arrg.py line 212, before it is repackaged into the Python calling
convention at lines 213-225) and this call's extra keyword arguments. -/
structure ROut where
  resolved : Dict
  extras : Dict

/-- One invocation of `wrapper` (arrg.py lines 140-225) up to the point the
underlying function is called: checks the positional arity, then resolves
every declared parameter.  `cl`/`cg` are the caller locals/globals as
produced by `get_locals`/`get_globals`; `pe` is the inherited
`__arrg_context__.extra_kwargs`.  Lines 213-225 only repackage
`resolved_args` into positional/keyword slots for the actual call and are
not needed by any claim. -/
def resolve (sig : List Param) (fgRaw : Dict) (args : List Value)
    (kwargs cl cg pe : Dict) : Except ArrgError ROut :=
  if maxPosCount sig < args.length then
    Except.error (ArrgError.tooManyPositional (maxPosCount sig) args.length)
  else
    Except.ok ⟨resolvedOf sig fgRaw args kwargs cl cg pe, extrasOf sig args kwargs pe⟩

/-!
The CLI collaborator's value conversion (`src/shi/cli.py`, `convert_value`,
lines 19-67).  The string-parsing builtins of Python that it calls are
modelled explicitly below: `pyInt` models `int(s, base)`, `pyFloat` models
`float(s)`, and `evalPy` is a partial model of the builtin `eval`.
-/

/-- A declared parameter annotation, as far as `convert_value` inspects it:
`empty` is `inspect.Parameter.empty` (no declared type). -/
inductive PType where
  | empty
  | bool
  | int
  | float
  | str
  | list (elem : PType)
  | other
deriving DecidableEq

/-- `value_str.startswith("0x")` (cli.py line 31), modelled on the character
list. -/
def startsWith0x (s : String) : Bool :=
  match s.data with
  | '0' :: 'x' :: _ => true
  | _ => false

/-- ASCII whitespace, for the stripping that `int()` / `float()` perform. -/
def isWsChar (c : Char) : Bool :=
  c == ' ' || c == '\t' || c == '\n' || c == '\r'

/-- Strip leading and trailing whitespace. -/
def trimWs (l : List Char) : List Char :=
  ((l.dropWhile isWsChar).reverse.dropWhile isWsChar).reverse

/-- The numeric value of a digit character in the given base, if valid. -/
def digitVal? (b : Nat) (c : Char) : Option Nat :=
  if c.isDigit then (if c.toNat - 48 < b then some (c.toNat - 48) else Option.none)
  else if 'a' ≤ c ∧ c ≤ 'z' then
    (if c.toNat - 87 < b then some (c.toNat - 87) else Option.none)
  else if 'A' ≤ c ∧ c ≤ 'Z' then
    (if c.toNat - 55 < b then some (c.toNat - 55) else Option.none)
  else Option.none

/-- Continue scanning a digit run in base `b`, allowing single underscores
between digits as Python's number parsing does. -/
def digitsGo (b : Nat) (acc : Nat) : List Char → Option Nat
  | [] => some acc
  | '_' :: c :: cs =>
      match digitVal? b c with
      | some d => digitsGo b (acc * b + d) cs
      | Option.none => Option.none
  | ['_'] => Option.none
  | c :: cs =>
      match digitVal? b c with
      | some d => digitsGo b (acc * b + d) cs
      | Option.none => Option.none

/-- The value of a nonempty digit run in base `b` (underscores only between
digits), or `Option.none` if the run is malformed. -/
def digitsVal (b : Nat) : List Char → Option Nat
  | [] => Option.none
  | c :: cs =>
      match digitVal? b c with
      | some d => digitsGo b d cs
      | Option.none => Option.none

/-- An optional leading sign; returns whether the value is negated and the
remaining characters. -/
def pySign : List Char → Bool × List Char
  | '+' :: cs => (false, cs)
  | '-' :: cs => (true, cs)
  | cs => (false, cs)

/-- Model of Python's `int(s, b)` for bases 10 and 16: strip ASCII
whitespace, take an optional sign, for base 16 allow an optional `0x`/`0X`
prefix, then require a well-formed digit run.  (Unicode digits and an
underscore directly after the base prefix are not modelled.) -/
def pyInt (s : String) (b : Nat) : Option Int :=
  let l := trimWs s.data
  let sl := pySign l
  let l₂ :=
    if b = 16 then
      match sl.2 with
      | '0' :: 'x' :: rest => rest
      | '0' :: 'X' :: rest => rest
      | other₁ => other₁
    else sl.2
  match digitsVal b l₂ with
  | some n => some (if sl.1 then -(n : Int) else (n : Int))
  | Option.none => Option.none

/-- The number of digit characters in a run (underscores excluded). -/
def countDigits (l : List Char) : Nat :=
  l.countP (fun c => c.isDigit)

/-- A digit run that is allowed to be empty (contributing the value 0). -/
def digitsValOpt (b : Nat) (l : List Char) : Option Nat :=
  if l = [] then some 0 else digitsVal b l

/-- Powers of ten as rationals, with integer exponent. -/
def pow10 (e : Int) : Rat :=
  (10 : Rat) ^ e

/-- The signed exponent digits after `e`/`E` in a float literal. -/
def parseExpSigned (r : List Char) : Option Int :=
  let sl := pySign r
  match digitsVal 10 sl.2 with
  | some n => some (if sl.1 then -(n : Int) else (n : Int))
  | Option.none => Option.none

/-- The optional exponent part of a float literal. -/
def parseExp : List Char → Option Int
  | [] => some 0
  | 'e' :: r => parseExpSigned r
  | 'E' :: r => parseExpSigned r
  | _ => Option.none

/-- The finite-decimal grammar accepted by Python's `float()`: optional
integer digits, an optional fraction after a dot, an optional exponent; at
least one digit must appear in the mantissa. -/
def parseDecimal (l : List Char) : Option Rat :=
  let isDU : Char → Bool := fun c => c.isDigit || c == '_'
  let intRun := l.takeWhile isDU
  let rest₁ := l.dropWhile isDU
  let fracRun := match rest₁ with | '.' :: r => r.takeWhile isDU | _ => ([] : List Char)
  let rest₂ := match rest₁ with | '.' :: r => r.dropWhile isDU | _ => rest₁
  if countDigits intRun + countDigits fracRun = 0 then Option.none
  else
    match digitsValOpt 10 intRun, digitsValOpt 10 fracRun, parseExp rest₂ with
    | some iv, some fv, some e =>
        some (((iv : Rat) + (fv : Rat) / pow10 (countDigits fracRun)) * pow10 e)
    | _, _, _ => Option.none

/-- Lower-case a character list. -/
def toLowerList (l : List Char) : List Char :=
  l.map Char.toLower

/-- Model of Python's `float(s)`: strip whitespace, optional sign, then
either (case-insensitively) `inf`/`infinity`/`nan` or a finite decimal
literal. -/
def pyFloat (s : String) : Option FloatV :=
  let l := trimWs s.data
  let sl := pySign l
  let low := toLowerList sl.2
  if low = "inf".data ∨ low = "infinity".data then some (FloatV.inf sl.1)
  else if low = "nan".data then some FloatV.nan
  else
    match parseDecimal sl.2 with
    | some q => some (FloatV.finite (if sl.1 then -q else q))
    | Option.none => Option.none

/-- Partial model of Python's builtin `eval` as called at cli.py line 40:
only the constant names `True`, `False` and `None` (surrounded by optional
whitespace) evaluate; every other input is modelled as failing, which
matches Python for inputs that raise `NameError`/`SyntaxError`.  The
theorems below only evaluate `evalPy` on inputs inside this fragment or on
inputs where Python's `eval` genuinely raises. -/
def evalPy (s : String) : Option Value :=
  let t := trimWs s.data
  if t = "True".data then some (Value.bool true)
  else if t = "False".data then some (Value.bool false)
  else if t = "None".data then some Value.none
  else Option.none

/-- `re.split(r",\s*", s)` as used at cli.py line 65: split at each comma
and greedily consume the whitespace that follows it. -/
def splitGo : List Char → Bool → String → List String
  | [], _, cur => [cur]
  | c :: cs, sk, cur =>
      if sk && isWsChar c then splitGo cs true cur
      else if c == ',' then cur :: splitGo cs true ""
      else splitGo cs false (cur.push c)

/-- Split a string on commas followed by optional whitespace. -/
def splitCommaWs (s : String) : List String :=
  splitGo s.data false ""

/-- `cli.convert_value` (cli.py lines 19-67): convert a CLI string to the
declared parameter type.  For an undeclared type (`PType.empty`) the source
tries, in order: `int(s, 10)`; `int(s, 16)` when the raw string starts with
`0x`; `float(s)`; `eval(s)` (swallowing every exception); and finally falls
back to the raw string. -/
def convert_value (value_str : String) (target_type : PType) : Value :=
  match target_type with
  | PType.empty =>
      match pyInt value_str 10 with
      | some n => Value.int n
      | Option.none =>
          match (if startsWith0x value_str then pyInt value_str 16 else Option.none) with
          | some n => Value.int n
          | Option.none =>
              match pyFloat value_str with
              | some f => Value.float f
              | Option.none =>
                  match evalPy value_str with
                  | some v => v
                  | Option.none => Value.str value_str
  | PType.bool =>
      Value.bool (["true", "1", "t", "y", "yes"].contains value_str.toLower)
  | PType.int =>
      match pyInt value_str 10 with
      | some n => Value.int n
      | Option.none =>
          match pyInt value_str 16 with
          | some n => Value.int n
          | Option.none => Value.str value_str
  | PType.float =>
      match pyFloat value_str with
      | some f => Value.float f
      | Option.none => Value.str value_str
  | PType.str => Value.str value_str
  | PType.list elem =>
      Value.list ((splitCommaWs value_str).map (fun item => convert_value item elem))
  | PType.other => Value.str value_str

/-!  ## Lemmas about the dict model  -/

/-- First-match-wins combination of two optional lookups. -/
def dOr (x y : Option Value) : Option Value :=
  match x with
  | some v => some v
  | Option.none => y

theorem dGet_nil (k : String) : dGet [] k = Option.none := rfl

theorem dGet_cons (k₁ : String) (v : Value) (t : Dict) (k : String) :
    dGet ((k₁, v) :: t) k = if k₁ = k then some v else dGet t k := rfl

theorem dGet_append (d₁ d₂ : Dict) (k : String) :
    dGet (d₁ ++ d₂) k = dOr (dGet d₁ k) (dGet d₂ k) := by
  induction d₁ with
  | nil => rfl
  | cons hd t ih =>
      obtain ⟨k₁, v⟩ := hd
      by_cases h : k₁ = k <;> simp [dGet, dOr, h, ih]

theorem mem_dKeys_cons (k k₁ : String) (v : Value) (t : Dict) :
    k ∈ dKeys ((k₁, v) :: t) ↔ k = k₁ ∨ k ∈ dKeys t := by
  unfold dKeys
  rw [List.map_cons, List.mem_cons]

theorem replace_head_eq (k : String) (v : Value) (k₁ : String) (w : Value)
    (h : k₁ = k) :
    (if ((k₁, w) : String × Value).1 = k then (k, v) else (k₁, w)) = (k, v) := by
  simp [h]

theorem replace_head_ne (k : String) (v : Value) (k₁ : String) (w : Value)
    (h : k₁ ≠ k) :
    (if ((k₁, w) : String × Value).1 = k then (k, v) else (k₁, w)) = (k₁, w) := by
  simp [h]

theorem dGet_replace (d : Dict) (k : String) (v : Value) :
    dGet (d.map (fun kv => if kv.1 = k then (k, v) else kv)) k =
      (dGet d k).map (fun _ => v) := by
  induction d with
  | nil => rfl
  | cons hd t ih =>
      obtain ⟨k₁, w⟩ := hd
      rw [List.map_cons]
      by_cases h : k₁ = k
      · rw [replace_head_eq k v k₁ w h, dGet_cons, dGet_cons, if_pos rfl, if_pos h]
        rfl
      · rw [replace_head_ne k v k₁ w h, dGet_cons, dGet_cons, if_neg h, if_neg h]
        exact ih

theorem dGet_replace_ne (d : Dict) (k : String) (v : Value) (k' : String)
    (h : k' ≠ k) :
    dGet (d.map (fun kv => if kv.1 = k then (k, v) else kv)) k' = dGet d k' := by
  induction d with
  | nil => rfl
  | cons hd t ih =>
      obtain ⟨k₁, w⟩ := hd
      rw [List.map_cons]
      by_cases h₁ : k₁ = k
      · rw [replace_head_eq k v k₁ w h₁, dGet_cons, dGet_cons, if_neg (Ne.symm h),
          if_neg (show k₁ ≠ k' from fun he => h (he ▸ h₁))]
        exact ih
      · rw [replace_head_ne k v k₁ w h₁, dGet_cons, dGet_cons]
        by_cases h₂ : k₁ = k' <;> simp [h₂, ih]

theorem dGet_dIns_self (d : Dict) (k : String) (v : Value) :
    dGet (dIns d k v) k = some v := by
  unfold dIns dHas
  cases hv : dGet d k with
  | none =>
      simp only [hv, Option.isSome_none, Bool.false_eq_true, if_false]
      rw [dGet_append, hv]
      simp [dGet, dOr]
  | some w =>
      simp only [hv, Option.isSome_some, if_true]
      rw [dGet_replace, hv]
      rfl

theorem dGet_dIns_ne (d : Dict) (k : String) (v : Value) (k' : String)
    (h : k' ≠ k) : dGet (dIns d k v) k' = dGet d k' := by
  unfold dIns dHas
  cases hv : dGet d k with
  | none =>
      simp only [hv, Option.isSome_none, Bool.false_eq_true, if_false]
      rw [dGet_append]
      have : dGet [(k, v)] k' = Option.none := by
        simp [dGet, Ne.symm h]
      rw [this]
      cases dGet d k' <;> rfl
  | some w =>
      simp only [hv, Option.isSome_some, if_true]
      exact dGet_replace_ne d k v k' h

theorem dGet_eq_none_iff (d : Dict) (k : String) :
    dGet d k = Option.none ↔ k ∉ dKeys d := by
  induction d with
  | nil => simp [dGet, dKeys]
  | cons hd t ih =>
      obtain ⟨k₁, v⟩ := hd
      rw [mem_dKeys_cons]
      by_cases h : k₁ = k
      · subst h
        simp [dGet]
      · rw [dGet_cons, if_neg h, ih, not_or]
        exact ⟨fun hn => ⟨fun he => h (Eq.symm he), hn⟩, fun hh => hh.2⟩

theorem dKeys_replace (d : Dict) (k : String) (v : Value) :
    dKeys (d.map (fun kv => if kv.1 = k then (k, v) else kv)) = dKeys d := by
  unfold dKeys
  rw [List.map_map]
  apply List.map_congr_left
  intro kv _
  by_cases hk : kv.1 = k <;> simp [Function.comp, hk]

theorem dNodup_dIns (d : Dict) (k : String) (v : Value) (h : dNodup d) :
    dNodup (dIns d k v) := by
  unfold dIns dHas
  cases hv : dGet d k with
  | none =>
      simp only [hv, Option.isSome_none, Bool.false_eq_true, if_false]
      unfold dNodup dKeys at *
      rw [List.map_append]
      rw [List.nodup_append]
      refine ⟨h, List.nodup_singleton k, ?_⟩
      intro a ha hb
      simp at hb
      subst hb
      exact (dGet_eq_none_iff d a).mp hv ha
  | some w =>
      simp only [hv, Option.isSome_some, if_true]
      unfold dNodup
      rw [dKeys_replace]
      exact h

theorem dMerge_nil (a : Dict) : dMerge a [] = a := rfl

theorem dMerge_cons (a : Dict) (k : String) (v : Value) (t : List (String × Value)) :
    dMerge a ((k, v) :: t) = dMerge (dIns a k v) t := rfl

theorem dGet_dMerge_notkey (a b : Dict) (k : String) (h : k ∉ dKeys b) :
    dGet (dMerge a b) k = dGet a k := by
  induction b generalizing a with
  | nil => rfl
  | cons hd t ih =>
      obtain ⟨k₁, v₁⟩ := hd
      rw [mem_dKeys_cons] at h
      push_neg at h
      rw [dMerge_cons, ih _ h.2, dGet_dIns_ne a k₁ v₁ k h.1]

theorem dGet_dMerge (a b : Dict) (k : String) (hb : dNodup b) :
    dGet (dMerge a b) k = dOr (dGet b k) (dGet a k) := by
  induction b generalizing a with
  | nil => rfl
  | cons hd t ih =>
      obtain ⟨k₁, v₁⟩ := hd
      unfold dNodup dKeys at hb
      rw [List.map_cons, List.nodup_cons] at hb
      rw [dMerge_cons, ih _ hb.2]
      by_cases h : k₁ = k
      · subst h
        have ht : dGet t k₁ = Option.none :=
          (dGet_eq_none_iff t k₁).mpr hb.1
        rw [ht, dGet_dIns_self]
        simp [dGet, dOr]
      · rw [dGet_dIns_ne a k₁ v₁ k (fun he => h (Eq.symm he))]
        simp [dGet, h]

theorem dNodup_dMerge (a b : Dict) (ha : dNodup a) : dNodup (dMerge a b) := by
  induction b generalizing a with
  | nil => exact ha
  | cons hd t ih =>
      obtain ⟨k₁, v₁⟩ := hd
      rw [dMerge_cons]
      exact ih _ (dNodup_dIns _ _ _ ha)

theorem dGet_filter_privates_private (d : Dict) (k : String)
    (h : is_private k = true) : dGet (filter_privates d) k = Option.none := by
  induction d with
  | nil => rfl
  | cons hd t ih =>
      obtain ⟨k₁, v⟩ := hd
      unfold filter_privates at *
      rw [List.filter_cons]
      by_cases hp : is_private k₁
      · simp only [hp, Bool.not_true, Bool.false_eq_true, if_false]
        exact ih
      · have hne : k₁ ≠ k := fun he => by rw [he, h] at hp; exact hp rfl
        simp only [Bool.not_eq_true] at hp
        simp only [hp, Bool.not_false, if_true]
        rw [dGet_cons, if_neg hne]
        exact ih

theorem dGet_filter_privates_public (d : Dict) (k : String)
    (h : is_private k = false) : dGet (filter_privates d) k = dGet d k := by
  induction d with
  | nil => rfl
  | cons hd t ih =>
      obtain ⟨k₁, v⟩ := hd
      unfold filter_privates at *
      rw [List.filter_cons]
      by_cases hp : is_private k₁
      · have hne : k₁ ≠ k := fun he => by rw [he, h] at hp; exact Bool.noConfusion hp
        simp only [hp, Bool.not_true, Bool.false_eq_true, if_false]
        rw [dGet_cons, if_neg hne]
        exact ih
      · simp only [Bool.not_eq_true] at hp
        simp only [hp, Bool.not_false, if_true]
        rw [dGet_cons, dGet_cons]
        by_cases he : k₁ = k <;> simp [he, ih]

theorem dGet_filter_privates_none (d : Dict) (k : String)
    (h : dGet d k = Option.none) : dGet (filter_privates d) k = Option.none := by
  cases hp : is_private k
  · rw [dGet_filter_privates_public d k hp]; exact h
  · exact dGet_filter_privates_private d k hp

theorem get_locals_nil : get_locals [] = [] := rfl

theorem get_locals_cons (f : Dict) (frames : List Dict) :
    get_locals (f :: frames) = dMerge (get_locals frames) (filter_privates f) := by
  unfold get_locals
  rw [List.reverse_cons, List.foldl_append]
  rfl

theorem get_globals_eq_get_locals (frames : List Dict) :
    get_globals frames = get_locals frames := rfl

theorem get_locals_private (frames : List Dict) (k : String)
    (h : is_private k = true) : dGet (get_locals frames) k = Option.none := by
  induction frames with
  | nil => rfl
  | cons f fs ih =>
      rw [get_locals_cons, dGet_dMerge_notkey, ih]
      exact (dGet_eq_none_iff (filter_privates f) k).mp
        (dGet_filter_privates_private f k h)

theorem get_globals_private (frames : List Dict) (k : String)
    (h : is_private k = true) : dGet (get_globals frames) k = Option.none := by
  rw [get_globals_eq_get_locals]
  exact get_locals_private frames k h

/-!  ## Lemmas about the three binding phases of `wrapper`  -/

theorem posGo_notmem (sig : List Param) (args : List Value) (res : Dict)
    (k : String) (h : k ∉ sig.map Param.name) :
    dGet (posGo res sig args) k = dGet res k := by
  revert h
  induction sig generalizing res args with
  | nil =>
      intro h
      cases args <;> rfl
  | cons p ps ih =>
      intro h
      rw [List.map_cons, List.mem_cons] at h
      push_neg at h
      cases args with
      | nil => rfl
      | cons a as =>
          simp only [posGo]
          by_cases hc : posCapable p
          · rw [if_pos hc, ih as (dIns res p.name a) h.2,
              dGet_dIns_ne res p.name a k h.1]
          · rw [if_neg hc, ih as res h.2]

theorem posBind_notmem (sig : List Param) (args : List Value) (k : String)
    (h : k ∉ sig.map Param.name) : dGet (posBind sig args) k = Option.none := by
  unfold posBind
  rw [posGo_notmem sig args [] k h]
  rfl

theorem posGo_at (l₁ l₂ : List Param) (a₁ a₂ : List Value) (p : Param) (v : Value)
    (res : Dict) (hlen : l₁.length = a₁.length) (hcap : posCapable p)
    (hnodup : ((l₁ ++ p :: l₂).map Param.name).Nodup) :
    dGet (posGo res (l₁ ++ p :: l₂) (a₁ ++ v :: a₂)) p.name = some v := by
  revert hlen hnodup
  induction l₁ generalizing res a₁ with
  | nil =>
      intro hlen hnodup
      have ha : a₁ = [] := List.length_eq_zero.mp hlen.symm
      subst ha
      simp only [List.nil_append, posGo]
      rw [if_pos hcap]
      have hnm : p.name ∉ l₂.map Param.name := by
        rw [List.nil_append, List.map_cons, List.nodup_cons] at hnodup
        exact hnodup.1
      rw [posGo_notmem l₂ a₂ _ _ hnm, dGet_dIns_self]
  | cons q l₁' ih =>
      intro hlen hnodup
      cases a₁ with
      | nil => simp at hlen
      | cons b a₁' =>
          simp only [List.cons_append, posGo]
          apply ih
          · simpa using hlen
          · rw [List.cons_append, List.map_cons, List.nodup_cons] at hnodup
            exact hnodup.2

theorem posBind_at (sig : List Param) (args : List Value) (l₁ l₂ : List Param)
    (a₁ a₂ : List Value) (p : Param) (v : Value)
    (hsig : sig = l₁ ++ p :: l₂) (hargs : args = a₁ ++ v :: a₂)
    (hlen : l₁.length = a₁.length) (hcap : posCapable p)
    (hnodup : (sig.map Param.name).Nodup) :
    dGet (posBind sig args) p.name = some v := by
  subst hsig hargs
  exact posGo_at l₁ l₂ a₁ a₂ p v [] hlen hcap hnodup

theorem kwGo_notkey (sig : List Param) (res ex : Dict) (l : List (String × Value))
    (k : String) (h : k ∉ l.map Prod.fst) :
    dGet (kwGo sig res ex l).1 k = dGet res k ∧
      dGet (kwGo sig res ex l).2 k = dGet ex k := by
  revert h
  induction l generalizing res ex with
  | nil => exact fun _ => ⟨rfl, rfl⟩
  | cons hd t ih =>
      intro h
      obtain ⟨k₁, v₁⟩ := hd
      rw [List.map_cons, List.mem_cons] at h
      push_neg at h
      simp only [kwGo]
      by_cases h1 : dHas res k₁
      · rw [if_pos h1]
        exact ih res ex h.2
      · rw [if_neg h1]
        by_cases h2 : sigHas sig k₁
        · rw [if_pos h2]
          obtain ⟨ha, hb⟩ := ih (dIns res k₁ v₁) ex h.2
          exact ⟨ha.trans (dGet_dIns_ne res k₁ v₁ k h.1), hb⟩
        · rw [if_neg h2]
          obtain ⟨ha, hb⟩ := ih res (dIns ex k₁ v₁) h.2
          exact ⟨ha, hb.trans (dGet_dIns_ne ex k₁ v₁ k h.1)⟩

theorem kwGo_res_preserve (sig : List Param) (res ex : Dict)
    (l : List (String × Value)) (k : String) (h : dHas res k = true) :
    dGet (kwGo sig res ex l).1 k = dGet res k := by
  revert h
  induction l generalizing res ex with
  | nil => exact fun _ => rfl
  | cons hd t ih =>
      intro h
      obtain ⟨k₁, v₁⟩ := hd
      simp only [kwGo]
      by_cases hk : k₁ = k
      · subst hk
        rw [if_pos h]
        exact ih res ex h
      · by_cases h1 : dHas res k₁
        · rw [if_pos h1]
          exact ih res ex h
        · rw [if_neg h1]
          by_cases h2 : sigHas sig k₁
          · rw [if_pos h2]
            have hres : dGet (dIns res k₁ v₁) k = dGet res k :=
              dGet_dIns_ne res k₁ v₁ k (fun he => hk (Eq.symm he))
            have h' : dHas (dIns res k₁ v₁) k = true := by
              unfold dHas at *
              rw [hres]
              exact h
            rw [ih (dIns res k₁ v₁) ex h', hres]
          · rw [if_neg h2]
            exact ih res (dIns ex k₁ v₁) h

theorem kwGo_res_bind (sig : List Param) (res ex : Dict)
    (l : List (String × Value)) (k : String) (v : Value)
    (hl : dNodup l) (hv : dGet l k = some v)
    (hsig : sigHas sig k = true) (hres : dHas res k = false) :
    dGet (kwGo sig res ex l).1 k = some v := by
  revert hl hv hres
  induction l generalizing res ex with
  | nil =>
      intro _ hv _
      simp [dGet] at hv
  | cons hd t ih =>
      intro hl hv hres
      obtain ⟨k₁, v₁⟩ := hd
      unfold dNodup dKeys at hl
      rw [List.map_cons, List.nodup_cons] at hl
      simp only [kwGo]
      by_cases hk : k₁ = k
      · subst hk
        have hv₁ : v₁ = v := by
          rw [dGet_cons, if_pos rfl] at hv
          exact Option.some.inj hv
        subst hv₁
        rw [if_neg (by simp [hres]), if_pos hsig]
        rw [(kwGo_notkey sig (dIns res k₁ v₁) ex t k₁ hl.1).1, dGet_dIns_self]
      · have hv' : dGet t k = some v := by
          rw [dGet_cons, if_neg hk] at hv
          exact hv
        by_cases h1 : dHas res k₁
        · rw [if_pos h1]
          exact ih res ex hl.2 hv' hres
        · rw [if_neg h1]
          by_cases h2 : sigHas sig k₁
          · rw [if_pos h2]
            have hres' : dHas (dIns res k₁ v₁) k = false := by
              unfold dHas at *
              rw [dGet_dIns_ne res k₁ v₁ k (fun he => hk (Eq.symm he))]
              exact hres
            exact ih (dIns res k₁ v₁) ex hl.2 hv' hres'
          · rw [if_neg h2]
            exact ih res (dIns ex k₁ v₁) hl.2 hv' hres

theorem kwGo_ex_bind (sig : List Param) (res ex : Dict)
    (l : List (String × Value)) (k : String) (v : Value)
    (hl : dNodup l) (hv : dGet l k = some v)
    (hsig : sigHas sig k = false) (hres : dHas res k = false) :
    dGet (kwGo sig res ex l).2 k = some v := by
  revert hl hv hres
  induction l generalizing res ex with
  | nil =>
      intro _ hv _
      simp [dGet] at hv
  | cons hd t ih =>
      intro hl hv hres
      obtain ⟨k₁, v₁⟩ := hd
      unfold dNodup dKeys at hl
      rw [List.map_cons, List.nodup_cons] at hl
      simp only [kwGo]
      by_cases hk : k₁ = k
      · subst hk
        have hv₁ : v₁ = v := by
          rw [dGet_cons, if_pos rfl] at hv
          exact Option.some.inj hv
        subst hv₁
        rw [if_neg (by simp [hres]), if_neg (by simp [hsig])]
        rw [(kwGo_notkey sig res (dIns ex k₁ v₁) t k₁ hl.1).2, dGet_dIns_self]
      · have hv' : dGet t k = some v := by
          rw [dGet_cons, if_neg hk] at hv
          exact hv
        by_cases h1 : dHas res k₁
        · rw [if_pos h1]
          exact ih res ex hl.2 hv' hres
        · rw [if_neg h1]
          by_cases h2 : sigHas sig k₁
          · rw [if_pos h2]
            have hres' : dHas (dIns res k₁ v₁) k = false := by
              unfold dHas at *
              rw [dGet_dIns_ne res k₁ v₁ k (fun he => hk (Eq.symm he))]
              exact hres
            exact ih (dIns res k₁ v₁) ex hl.2 hv' hres'
          · rw [if_neg h2]
            exact ih res (dIns ex k₁ v₁) hl.2 hv' hres

theorem kwGo_ex_sig (sig : List Param) (res ex : Dict)
    (l : List (String × Value)) (k : String) (hsig : sigHas sig k = true) :
    dGet (kwGo sig res ex l).2 k = dGet ex k := by
  induction l generalizing res ex with
  | nil => rfl
  | cons hd t ih =>
      obtain ⟨k₁, v₁⟩ := hd
      simp only [kwGo]
      by_cases h1 : dHas res k₁
      · rw [if_pos h1]
        exact ih res ex
      · rw [if_neg h1]
        by_cases h2 : sigHas sig k₁
        · rw [if_pos h2]
          exact ih (dIns res k₁ v₁) ex
        · rw [if_neg h2]
          have hk : k ≠ k₁ := by
            intro he
            rw [he] at hsig
            rw [hsig] at h2
            exact h2 rfl
          rw [ih res (dIns ex k₁ v₁), dGet_dIns_ne ex k₁ v₁ k hk]

theorem kwGo_ex_nodup (sig : List Param) (res ex : Dict)
    (l : List (String × Value)) (hex : dNodup ex) :
    dNodup (kwGo sig res ex l).2 := by
  revert hex
  induction l generalizing res ex with
  | nil => exact fun hex => hex
  | cons hd t ih =>
      intro hex
      obtain ⟨k₁, v₁⟩ := hd
      simp only [kwGo]
      by_cases h1 : dHas res k₁
      · rw [if_pos h1]
        exact ih res ex hex
      · rw [if_neg h1]
        by_cases h2 : sigHas sig k₁
        · rw [if_pos h2]
          exact ih (dIns res k₁ v₁) ex hex
        · rw [if_neg h2]
          exact ih res (dIns ex k₁ v₁) (dNodup_dIns ex k₁ v₁ hex)

theorem fillGo_notmem (pe cl fg cg : Dict) (sig : List Param) (res : Dict)
    (k : String) (h : k ∉ sig.map Param.name) :
    dGet (fillGo pe cl fg cg res sig) k = dGet res k := by
  revert h
  induction sig generalizing res with
  | nil => exact fun _ => rfl
  | cons p ps ih =>
      intro h
      rw [List.map_cons, List.mem_cons] at h
      push_neg at h
      simp only [fillGo]
      by_cases h1 : dHas res p.name
      · rw [if_pos h1]
        exact ih res h.2
      · rw [if_neg h1]
        by_cases h2 : p.kind = PKind.varPos ∨ p.kind = PKind.varKw
        · rw [if_pos h2]
          exact ih res h.2
        · rw [if_neg h2]
          rw [ih _ h.2, dGet_dIns_ne res p.name _ k h.1]

theorem fillGo_preserve (pe cl fg cg : Dict) (sig : List Param) (res : Dict)
    (k : String) (h : dHas res k = true) :
    dGet (fillGo pe cl fg cg res sig) k = dGet res k := by
  revert h
  induction sig generalizing res with
  | nil => exact fun _ => rfl
  | cons p ps ih =>
      intro h
      simp only [fillGo]
      by_cases hpk : p.name = k
      · rw [if_pos (hpk ▸ h)]
        exact ih res h
      · by_cases h1 : dHas res p.name
        · rw [if_pos h1]
          exact ih res h
        · rw [if_neg h1]
          by_cases h2 : p.kind = PKind.varPos ∨ p.kind = PKind.varKw
          · rw [if_pos h2]
            exact ih res h
          · rw [if_neg h2]
            have hg : dGet (dIns res p.name (fillValue pe cl fg cg p)) k = dGet res k :=
              dGet_dIns_ne res p.name _ k (fun he => hpk (Eq.symm he))
            have h' : dHas (dIns res p.name (fillValue pe cl fg cg p)) k = true := by
              unfold dHas at *
              rw [hg]
              exact h
            rw [ih _ h', hg]

theorem fillGo_fill (pe cl fg cg : Dict) (sig : List Param) (res : Dict) (p : Param)
    (hnodup : (sig.map Param.name).Nodup) (hp : p ∈ sig)
    (hk1 : p.kind ≠ PKind.varPos) (hk2 : p.kind ≠ PKind.varKw)
    (hres : dHas res p.name = false) :
    dGet (fillGo pe cl fg cg res sig) p.name = some (fillValue pe cl fg cg p) := by
  revert hnodup hp hres
  induction sig generalizing res with
  | nil =>
      intro _ hp _
      exact absurd hp (List.not_mem_nil p)
  | cons q ps ih =>
      intro hnodup hp hres
      rw [List.map_cons, List.nodup_cons] at hnodup
      simp only [fillGo]
      rcases List.mem_cons.mp hp with rfl | hp'
      · rw [if_neg (by simp [hres])]
        rw [if_neg (by rintro (hc | hc) <;> [exact hk1 hc; exact hk2 hc])]
        rw [fillGo_notmem pe cl fg cg ps _ _ hnodup.1, dGet_dIns_self]
      · have hqp : q.name ≠ p.name := by
          intro he
          exact hnodup.1 (he ▸ List.mem_map_of_mem Param.name hp')
        by_cases h1 : dHas res q.name
        · rw [if_pos h1]
          exact ih res hnodup.2 hp' hres
        · rw [if_neg h1]
          by_cases h2 : q.kind = PKind.varPos ∨ q.kind = PKind.varKw
          · rw [if_pos h2]
            exact ih res hnodup.2 hp' hres
          · rw [if_neg h2]
            have hres' : dHas (dIns res q.name (fillValue pe cl fg cg q)) p.name = false := by
              unfold dHas at *
              rw [dGet_dIns_ne res q.name _ p.name (Ne.symm hqp)]
              exact hres
            exact ih _ hnodup.2 hp' hres'

theorem sigHas_of_mem (sig : List Param) (p : Param) (hp : p ∈ sig) :
    sigHas sig p.name = true := by
  unfold sigHas
  rw [List.any_eq_true]
  exact ⟨p, hp, by simp⟩

theorem dHas_eq_false_of_dGet_none (d : Dict) (k : String)
    (h : dGet d k = Option.none) : dHas d k = false := by
  unfold dHas
  rw [h]
  rfl

theorem dHas_eq_true_of_dGet_some (d : Dict) (k : String) (v : Value)
    (h : dGet d k = some v) : dHas d k = true := by
  unfold dHas
  rw [h]
  rfl

theorem dGet_mergedKwargs_right (pe kwargs : Dict) (k : String) (v : Value)
    (hkw : dNodup kwargs) (h : dGet kwargs k = some v) :
    dGet (mergedKwargs pe kwargs) k = some v := by
  unfold mergedKwargs
  rw [dGet_dMerge pe kwargs k hkw, h]
  rfl

theorem dGet_mergedKwargs_none (pe kwargs : Dict) (k : String)
    (hkw : dNodup kwargs) (hpe : dGet pe k = Option.none)
    (h : dGet kwargs k = Option.none) :
    dGet (mergedKwargs pe kwargs) k = Option.none := by
  unfold mergedKwargs
  rw [dGet_dMerge pe kwargs k hkw, h]
  exact hpe

theorem dGet_mergedKwargs_left (pe kwargs : Dict) (k : String)
    (hkw : dNodup kwargs) (h : dGet kwargs k = Option.none) :
    dGet (mergedKwargs pe kwargs) k = dGet pe k := by
  unfold mergedKwargs
  rw [dGet_dMerge pe kwargs k hkw, h]
  rfl

theorem dNodup_mergedKwargs (pe kwargs : Dict) (hpe : dNodup pe) :
    dNodup (mergedKwargs pe kwargs) :=
  dNodup_dMerge pe kwargs hpe

/-!  ## Characterisation of a full resolution  -/

theorem not_mem_of_sigHas_false (sig : List Param) (k : String)
    (h : sigHas sig k = false) : k ∉ sig.map Param.name := by
  intro hm
  obtain ⟨p', hp', hname⟩ := List.mem_map.mp hm
  unfold sigHas at h
  rw [List.any_eq_false] at h
  have := h p' hp'
  simp [hname] at this

theorem resolve_ok (sig : List Param) (fgRaw : Dict) (args : List Value)
    (kwargs cl cg pe : Dict) (harity : args.length ≤ maxPosCount sig) :
    resolve sig fgRaw args kwargs cl cg pe =
      Except.ok ⟨resolvedOf sig fgRaw args kwargs cl cg pe,
        extrasOf sig args kwargs pe⟩ := by
  unfold resolve
  rw [if_neg (not_lt.mpr harity)]

theorem resolvedOf_posExplicit (sig : List Param) (fgRaw : Dict)
    (args : List Value) (kwargs cl cg pe : Dict) (p : Param) (v : Value)
    (hpos : dGet (posBind sig args) p.name = some v) :
    dGet (resolvedOf sig fgRaw args kwargs cl cg pe) p.name = some v := by
  unfold resolvedOf afterKeywords
  have h1 : dGet (kwGo sig (posBind sig args) [] (mergedKwargs pe kwargs)).1 p.name
      = some v := by
    rw [kwGo_res_preserve sig (posBind sig args) [] (mergedKwargs pe kwargs) p.name
      (dHas_eq_true_of_dGet_some _ _ _ hpos)]
    exact hpos
  rw [fillGo_preserve pe cl (filter_privates fgRaw) cg sig _ p.name
    (dHas_eq_true_of_dGet_some _ _ _ h1)]
  exact h1

theorem resolvedOf_kwExplicit (sig : List Param) (fgRaw : Dict)
    (args : List Value) (kwargs cl cg pe : Dict) (p : Param) (v : Value)
    (hp : p ∈ sig)
    (hM : dNodup (mergedKwargs pe kwargs))
    (hkwM : dGet (mergedKwargs pe kwargs) p.name = some v)
    (hpos : dGet (posBind sig args) p.name = Option.none) :
    dGet (resolvedOf sig fgRaw args kwargs cl cg pe) p.name = some v := by
  unfold resolvedOf afterKeywords
  have h1 : dGet (kwGo sig (posBind sig args) [] (mergedKwargs pe kwargs)).1 p.name
      = some v :=
    kwGo_res_bind sig (posBind sig args) [] (mergedKwargs pe kwargs) p.name v
      hM hkwM (sigHas_of_mem sig p hp) (dHas_eq_false_of_dGet_none _ _ hpos)
  rw [fillGo_preserve pe cl (filter_privates fgRaw) cg sig _ p.name
    (dHas_eq_true_of_dGet_some _ _ _ h1)]
  exact h1

theorem resolvedOf_fill (sig : List Param) (fgRaw : Dict) (args : List Value)
    (kwargs cl cg pe : Dict) (p : Param)
    (hnodup : (sig.map Param.name).Nodup) (hp : p ∈ sig)
    (hk1 : p.kind ≠ PKind.varPos) (hk2 : p.kind ≠ PKind.varKw)
    (hpos : dGet (posBind sig args) p.name = Option.none)
    (hkwM : dGet (mergedKwargs pe kwargs) p.name = Option.none) :
    dGet (resolvedOf sig fgRaw args kwargs cl cg pe) p.name =
      some (fillValue pe cl (filter_privates fgRaw) cg p) := by
  unfold resolvedOf afterKeywords
  have hnk : p.name ∉ (mergedKwargs pe kwargs).map Prod.fst :=
    (dGet_eq_none_iff _ _).mp hkwM
  have h1 : dGet (kwGo sig (posBind sig args) [] (mergedKwargs pe kwargs)).1 p.name
      = Option.none := by
    rw [(kwGo_notkey sig (posBind sig args) [] (mergedKwargs pe kwargs) p.name hnk).1]
    exact hpos
  exact fillGo_fill pe cl (filter_privates fgRaw) cg sig _ p hnodup hp hk1 hk2
    (dHas_eq_false_of_dGet_none _ _ h1)

theorem extrasOf_sig (sig : List Param) (args : List Value) (kwargs pe : Dict)
    (k : String) (hsig : sigHas sig k = true) :
    dGet (extrasOf sig args kwargs pe) k = Option.none := by
  unfold extrasOf afterKeywords
  rw [kwGo_ex_sig sig (posBind sig args) [] (mergedKwargs pe kwargs) k hsig]
  rfl

theorem extrasOf_bind (sig : List Param) (args : List Value) (kwargs pe : Dict)
    (k : String) (v : Value)
    (hM : dNodup (mergedKwargs pe kwargs))
    (hv : dGet (mergedKwargs pe kwargs) k = some v)
    (hsig : sigHas sig k = false) :
    dGet (extrasOf sig args kwargs pe) k = some v := by
  unfold extrasOf afterKeywords
  exact kwGo_ex_bind sig (posBind sig args) [] (mergedKwargs pe kwargs) k v
    hM hv hsig
    (dHas_eq_false_of_dGet_none _ _
      (posBind_notmem sig args k (not_mem_of_sigHas_false sig k hsig)))

theorem extrasOf_nodup (sig : List Param) (args : List Value) (kwargs pe : Dict) :
    dNodup (extrasOf sig args kwargs pe) := by
  unfold extrasOf afterKeywords
  exact kwGo_ex_nodup sig (posBind sig args) [] (mergedKwargs pe kwargs)
    List.nodup_nil

/-!  ## The claims  -/

/-- C1, counterexample.  The claim states the scope-chain tier order is:
declaring function's static environment (highest), then caller locals, then
caller globals.  At a concrete input where the name `a` is bound in all three
tiers with different values, the code resolves `a` from the caller's locals
(`Value.int 2`), not from the function's globals (`Value.int 1`), so the
claimed tier order is false on the code. -/
theorem claim_C1_cex :
    resolve [⟨"a", PKind.posOrKw, Option.none⟩] [("a", Value.int 1)] [] []
        [("a", Value.int 2)] [("a", Value.int 3)] [] =
      Except.ok ⟨[("a", Value.int 2)], []⟩ ∧
    Value.int 2 ≠ Value.int 1 := by
  refine ⟨rfl, ?_⟩
  intro h
  rw [Value.int.injEq] at h
  exact absurd h (by decide)

/-- C1, amended.  For every parameter that is not explicitly supplied, not
present in inherited extras, and has no declared default, the scope-chain
lookup consults tiers in the fixed order: the immediate caller's local
bindings (highest), then the declaring function's own static environment
(private names filtered), then the immediate caller's static environment;
whenever the same name is present at two different tiers, the resolved value
is the higher-priority tier's value, for every pair of tiers. -/
theorem claim_C1_amended (sig : List Param) (fgRaw : Dict) (args : List Value)
    (kwargs cl cg pe : Dict) (p : Param)
    (hnodup : (sig.map Param.name).Nodup) (hp : p ∈ sig)
    (hk1 : p.kind ≠ PKind.varPos) (hk2 : p.kind ≠ PKind.varKw)
    (hkwnodup : dNodup kwargs)
    (hpos : dGet (posBind sig args) p.name = Option.none)
    (hkw : dGet kwargs p.name = Option.none)
    (hpe : dGet pe p.name = Option.none)
    (hdef : p.default = Option.none) :
    (∀ v, dGet cl p.name = some v →
      dGet (resolvedOf sig fgRaw args kwargs cl cg pe) p.name = some v) ∧
    (dGet cl p.name = Option.none →
      ∀ v, dGet (filter_privates fgRaw) p.name = some v →
        dGet (resolvedOf sig fgRaw args kwargs cl cg pe) p.name = some v) ∧
    (dGet cl p.name = Option.none →
      dGet (filter_privates fgRaw) p.name = Option.none →
        ∀ v, dGet cg p.name = some v →
          dGet (resolvedOf sig fgRaw args kwargs cl cg pe) p.name = some v) := by
  have hfill := resolvedOf_fill sig fgRaw args kwargs cl cg pe p hnodup hp hk1 hk2
    hpos (dGet_mergedKwargs_none pe kwargs p.name hkwnodup hpe hkw)
  refine ⟨?_, ?_, ?_⟩
  · intro v hcl
    rw [hfill]
    simp only [fillValue, scopeValue, hpe, hdef, hcl]
  · intro hcl v hfg
    rw [hfill]
    simp only [fillValue, scopeValue, hpe, hdef, hcl, hfg]
  · intro hcl hfg v hcg
    rw [hfill]
    simp only [fillValue, scopeValue, hpe, hdef, hcl, hfg, hcg]

/-- C1, witness for the amended theorem: one parameter `n`, bound in the
caller's locals, the function's globals and the caller's globals with three
different values; the resolved value is the caller-local one. -/
theorem claim_C1_amended_witness :
    dGet (resolvedOf [⟨"n", PKind.posOrKw, Option.none⟩] [("n", Value.int 6)]
        [] [] [("n", Value.int 5)] [("n", Value.int 7)] []) "n" =
      some (Value.int 5) :=
  (claim_C1_amended [⟨"n", PKind.posOrKw, Option.none⟩] [("n", Value.int 6)]
    [] [] [("n", Value.int 5)] [("n", Value.int 7)] []
    ⟨"n", PKind.posOrKw, Option.none⟩ (by decide)
    (List.mem_singleton.mpr rfl) (by decide) (by decide) (by decide)
    rfl rfl rfl rfl).1 (Value.int 5) rfl

/-- C2, counterexample.  The claim states that no arity failure occurs when a
variadic-positional parameter is declared; but the code counts only
positional-only and positional-or-keyword parameters in `max_pos_args` and
raises regardless of a declared `*args`: a signature `(a, *rest)` invoked
with two positional arguments fails with max=1, actual=2. -/
theorem claim_C2_cex :
    resolve [⟨"a", PKind.posOrKw, Option.none⟩, ⟨"rest", PKind.varPos, Option.none⟩]
        [] [Value.int 1, Value.int 2] [] [] [] [] =
      Except.error (ArrgError.tooManyPositional 1 2) := rfl

/-- C2, amended.  Invoking a resolvable callable with more positional
arguments than it has positional-capable parameters always fails with an
arity error naming the maximum and the actual count — whether or not a
variadic-positional parameter is declared — and no arity failure occurs
otherwise. -/
theorem claim_C2_amended (sig : List Param) (fgRaw : Dict) (args : List Value)
    (kwargs cl cg pe : Dict) :
    resolve sig fgRaw args kwargs cl cg pe =
        Except.error (ArrgError.tooManyPositional (maxPosCount sig) args.length) ↔
      maxPosCount sig < args.length := by
  unfold resolve
  by_cases h : maxPosCount sig < args.length
  · rw [if_pos h]
    simp [h]
  · rw [if_neg h]
    simp [h]

/-- C3: extras propagation.  A keyword `k` supplied to call A that matches no
declared parameter of A lands in A's ExtraBindings; when A's body invokes
resolvable call B that declares a parameter named `k` and B receives no
explicit argument for it, B resolves `k` to the extra value — even when B
declares a default for it (the extra binds above the default) — and an
explicit keyword argument to B overrides the extra. -/
theorem claim_C3 (sigA : List Param) (argsA : List Value) (kwargsA peA : Dict)
    (sigB : List Param) (fgB : Dict) (argsB : List Value)
    (kwargsB clB cgB : Dict) (p : Param) (k : String) (v : Value)
    (hk : p.name = k)
    (hAsig : sigHas sigA k = false)
    (hAkw : dGet kwargsA k = some v)
    (hAkwnodup : dNodup kwargsA) (hpeAnodup : dNodup peA)
    (hpB : p ∈ sigB)
    (hBpos : dGet (posBind sigB argsB) k = Option.none)
    (hBkw : dGet kwargsB k = Option.none)
    (hBkwnodup : dNodup kwargsB) :
    dGet (resolvedOf sigB fgB argsB kwargsB clB cgB
        (extrasOf sigA argsA kwargsA peA)) k = some v ∧
    (∀ kwargsB2 : Dict, ∀ w : Value, dNodup kwargsB2 → dGet kwargsB2 k = some w →
      dGet (resolvedOf sigB fgB argsB kwargsB2 clB cgB
        (extrasOf sigA argsA kwargsA peA)) k = some w) := by
  subst hk
  have hextras : dGet (extrasOf sigA argsA kwargsA peA) p.name = some v :=
    extrasOf_bind sigA argsA kwargsA peA p.name v
      (dNodup_mergedKwargs peA kwargsA hpeAnodup)
      (dGet_mergedKwargs_right peA kwargsA p.name v hAkwnodup hAkw) hAsig
  have hexnodup : dNodup (extrasOf sigA argsA kwargsA peA) :=
    extrasOf_nodup sigA argsA kwargsA peA
  constructor
  · have hkwM : dGet (mergedKwargs (extrasOf sigA argsA kwargsA peA) kwargsB) p.name
        = some v := by
      rw [dGet_mergedKwargs_left _ kwargsB p.name hBkwnodup hBkw]
      exact hextras
    exact resolvedOf_kwExplicit sigB fgB argsB kwargsB clB cgB _ p v hpB
      (dNodup_mergedKwargs _ kwargsB hexnodup) hkwM hBpos
  · intro kwargsB2 w hn2 hkw2
    exact resolvedOf_kwExplicit sigB fgB argsB kwargsB2 clB cgB _ p w hpB
      (dNodup_mergedKwargs _ kwargsB2 hexnodup)
      (dGet_mergedKwargs_right _ kwargsB2 p.name w hn2 hkw2) hBpos

/-- C3, witness: call A with signature `(a)` receives the unmatched keyword
`b=42`; nested call B declares `b` with default `7` and resolves it to `42`
(the extra beats the default); if B instead receives an explicit `b=5`, the
explicit value wins. -/
theorem claim_C3_witness :
    dGet (resolvedOf [⟨"b", PKind.posOrKw, some (Value.int 7)⟩] [] [] []
        [("b", Value.int 9)] []
        (extrasOf [⟨"a", PKind.posOrKw, Option.none⟩] [] [("b", Value.int 42)] []))
      "b" = some (Value.int 42) ∧
    dGet (resolvedOf [⟨"b", PKind.posOrKw, some (Value.int 7)⟩] [] []
        [("b", Value.int 5)] [("b", Value.int 9)] []
        (extrasOf [⟨"a", PKind.posOrKw, Option.none⟩] [] [("b", Value.int 42)] []))
      "b" = some (Value.int 5) := by
  have h := claim_C3 [⟨"a", PKind.posOrKw, Option.none⟩] [] [("b", Value.int 42)] []
    [⟨"b", PKind.posOrKw, some (Value.int 7)⟩] [] [] [] [("b", Value.int 9)] []
    ⟨"b", PKind.posOrKw, some (Value.int 7)⟩ "b" (Value.int 42)
    rfl rfl rfl (by decide) (by decide)
    (List.mem_singleton.mpr rfl) rfl rfl (by decide)
  exact ⟨h.1, h.2 [("b", Value.int 5)] (Value.int 5) (by decide) rfl⟩

/-- C4: explicit-over-implicit.  If the caller supplies parameter `p`
positionally (as the positional argument aligned with `p`'s slot) or by
keyword (when `p` was not bound positionally), the resolved value of `p`
equals the supplied value, for every content of the caller scopes, the
function's globals, the declared default and the inherited extras. -/
theorem claim_C4 (sig : List Param) (fgRaw : Dict) (args : List Value)
    (kwargs cl cg pe : Dict) (p : Param) (v : Value)
    (hnodup : (sig.map Param.name).Nodup) (hp : p ∈ sig)
    (hkwnodup : dNodup kwargs) (hpenodup : dNodup pe) :
    ((∃ l₁ l₂ a₁ a₂, sig = l₁ ++ p :: l₂ ∧ args = a₁ ++ v :: a₂ ∧
        l₁.length = a₁.length ∧ posCapable p) →
      dGet (resolvedOf sig fgRaw args kwargs cl cg pe) p.name = some v) ∧
    ((dGet (posBind sig args) p.name = Option.none ∧ dGet kwargs p.name = some v) →
      dGet (resolvedOf sig fgRaw args kwargs cl cg pe) p.name = some v) := by
  constructor
  · rintro ⟨l₁, l₂, a₁, a₂, hsig, hargs, hlen, hcap⟩
    exact resolvedOf_posExplicit sig fgRaw args kwargs cl cg pe p v
      (posBind_at sig args l₁ l₂ a₁ a₂ p v hsig hargs hlen hcap hnodup)
  · rintro ⟨hpos, hkw⟩
    exact resolvedOf_kwExplicit sig fgRaw args kwargs cl cg pe p v hp
      (dNodup_mergedKwargs pe kwargs hpenodup)
      (dGet_mergedKwargs_right pe kwargs p.name v hkwnodup hkw) hpos

/-- C4, witness: signature `(a=0, b)`, call `(1, b=2)` with every implicit
source binding both names to `9`; `a` resolves to the positional `1` and `b`
to the keyword `2`. -/
theorem claim_C4_witness :
    dGet (resolvedOf [⟨"a", PKind.posOrKw, some (Value.int 0)⟩, ⟨"b", PKind.posOrKw, Option.none⟩]
        [("a", Value.int 9), ("b", Value.int 9)] [Value.int 1] [("b", Value.int 2)]
        [("a", Value.int 9), ("b", Value.int 9)] [("a", Value.int 9), ("b", Value.int 9)]
        [("a", Value.int 9), ("b", Value.int 9)]) "a" = some (Value.int 1) ∧
    dGet (resolvedOf [⟨"a", PKind.posOrKw, some (Value.int 0)⟩, ⟨"b", PKind.posOrKw, Option.none⟩]
        [("a", Value.int 9), ("b", Value.int 9)] [Value.int 1] [("b", Value.int 2)]
        [("a", Value.int 9), ("b", Value.int 9)] [("a", Value.int 9), ("b", Value.int 9)]
        [("a", Value.int 9), ("b", Value.int 9)]) "b" = some (Value.int 2) := by
  constructor
  · exact (claim_C4 [⟨"a", PKind.posOrKw, some (Value.int 0)⟩, ⟨"b", PKind.posOrKw, Option.none⟩]
      [("a", Value.int 9), ("b", Value.int 9)] [Value.int 1] [("b", Value.int 2)]
      [("a", Value.int 9), ("b", Value.int 9)] [("a", Value.int 9), ("b", Value.int 9)]
      [("a", Value.int 9), ("b", Value.int 9)]
      ⟨"a", PKind.posOrKw, some (Value.int 0)⟩ (Value.int 1)
      (by decide) (List.mem_cons_self _ _) (by decide) (by decide)).1
      ⟨[], [⟨"b", PKind.posOrKw, Option.none⟩], [], [], rfl, rfl, rfl, Or.inr rfl⟩
  · exact (claim_C4 [⟨"a", PKind.posOrKw, some (Value.int 0)⟩, ⟨"b", PKind.posOrKw, Option.none⟩]
      [("a", Value.int 9), ("b", Value.int 9)] [Value.int 1] [("b", Value.int 2)]
      [("a", Value.int 9), ("b", Value.int 9)] [("a", Value.int 9), ("b", Value.int 9)]
      [("a", Value.int 9), ("b", Value.int 9)]
      ⟨"b", PKind.posOrKw, Option.none⟩ (Value.int 2)
      (by decide) (List.mem_cons_of_mem _ (List.mem_cons_self _ _)) (by decide)
      (by decide)).2 ⟨rfl, rfl⟩

/-- C5: default-over-chain.  A parameter with a declared default that is not
explicitly supplied and not present in inherited extras resolves to the
default, for every content of the caller locals, the function's globals and
the caller globals. -/
theorem claim_C5 (sig : List Param) (fgRaw : Dict) (args : List Value)
    (kwargs cl cg pe : Dict) (p : Param) (d : Value)
    (hnodup : (sig.map Param.name).Nodup) (hp : p ∈ sig)
    (hk1 : p.kind ≠ PKind.varPos) (hk2 : p.kind ≠ PKind.varKw)
    (hkwnodup : dNodup kwargs)
    (hpos : dGet (posBind sig args) p.name = Option.none)
    (hkw : dGet kwargs p.name = Option.none)
    (hpe : dGet pe p.name = Option.none)
    (hdef : p.default = some d) :
    dGet (resolvedOf sig fgRaw args kwargs cl cg pe) p.name = some d := by
  rw [resolvedOf_fill sig fgRaw args kwargs cl cg pe p hnodup hp hk1 hk2 hpos
    (dGet_mergedKwargs_none pe kwargs p.name hkwnodup hpe hkw)]
  simp only [fillValue, hpe, hdef]

/-- C5, witness: signature `(c=300)` with `c` bound to different values in
caller locals, the function's globals and caller globals; `c` resolves to the
default `300`. -/
theorem claim_C5_witness :
    dGet (resolvedOf [⟨"c", PKind.posOrKw, some (Value.int 300)⟩] [("c", Value.int 2)]
        [] [] [("c", Value.int 1)] [("c", Value.int 3)] []) "c" =
      some (Value.int 300) :=
  claim_C5 [⟨"c", PKind.posOrKw, some (Value.int 300)⟩] [("c", Value.int 2)]
    [] [] [("c", Value.int 1)] [("c", Value.int 3)] []
    ⟨"c", PKind.posOrKw, some (Value.int 300)⟩ (Value.int 300)
    (by decide) (List.mem_singleton.mpr rfl) (by decide) (by decide) (by decide)
    rfl rfl rfl rfl

theorem get_locals_head_xy (rest : List Dict) :
    dGet (get_locals ([("x", Value.int 10), ("y", Value.int 20)] :: rest)) "x" =
      some (Value.int 10) ∧
    dGet (get_locals ([("x", Value.int 10), ("y", Value.int 20)] :: rest)) "y" =
      some (Value.int 20) := by
  rw [get_locals_cons]
  have hf : filter_privates [("x", Value.int 10), ("y", Value.int 20)] =
      [("x", Value.int 10), ("y", Value.int 20)] := rfl
  rw [hf, dMerge_cons, dMerge_cons, dMerge_nil]
  constructor
  · rw [dGet_dIns_ne _ "y" (Value.int 20) "x" (by decide), dGet_dIns_self]
  · rw [dGet_dIns_self]

/-- C6: nested resolution.  The outer callable F with signature
`(x=10, y=20)`, invoked bare, resolves `{x:10, y:20}` with empty extras; the
inner callable G declaring `x, y` with no explicit arguments — whose caller
locals are F's body frame (holding F's ResolvedArguments) layered over any
inherited frames, and whose inherited extras are F's ExtraBindings — resolves
`{x:10, y:20}` from F's resolved values, for every inherited chain beneath
and every global environment.  Moreover a call's ExtraBindings never contain
a declared parameter name, so F's ResolvedArguments and F's ExtraBindings are
key-disjoint and the claimed layering (ResolvedArguments above ExtraBindings
above the inherited chain) describes exactly the observable lookup. -/
theorem claim_C6 :
    resolve [⟨"x", PKind.posOrKw, some (Value.int 10)⟩,
        ⟨"y", PKind.posOrKw, some (Value.int 20)⟩] [] [] [] [] [] [] =
      Except.ok ⟨[("x", Value.int 10), ("y", Value.int 20)], []⟩ ∧
    (∀ rest : List Dict, ∀ cg fgRaw : Dict,
      dGet (resolvedOf [⟨"x", PKind.posOrKw, Option.none⟩, ⟨"y", PKind.posOrKw, Option.none⟩]
          fgRaw [] [] (get_locals ([("x", Value.int 10), ("y", Value.int 20)] :: rest))
          cg []) "x" = some (Value.int 10) ∧
      dGet (resolvedOf [⟨"x", PKind.posOrKw, Option.none⟩, ⟨"y", PKind.posOrKw, Option.none⟩]
          fgRaw [] [] (get_locals ([("x", Value.int 10), ("y", Value.int 20)] :: rest))
          cg []) "y" = some (Value.int 20)) ∧
    (∀ sig : List Param, ∀ args : List Value, ∀ kwargs pe : Dict, ∀ k : String,
      sigHas sig k = true → dGet (extrasOf sig args kwargs pe) k = Option.none) := by
  refine ⟨rfl, ?_, ?_⟩
  · intro rest cg fgRaw
    obtain ⟨hx, hy⟩ := get_locals_head_xy rest
    constructor
    · rw [resolvedOf_fill _ fgRaw [] [] _ cg [] ⟨"x", PKind.posOrKw, Option.none⟩
        (by decide) (List.mem_cons_self _ _) (by decide) (by decide) rfl rfl]
      simp only [fillValue, scopeValue, dGet_nil, hx]
    · rw [resolvedOf_fill _ fgRaw [] [] _ cg [] ⟨"y", PKind.posOrKw, Option.none⟩
        (by decide) (List.mem_cons_of_mem _ (List.mem_cons_self _ _))
        (by decide) (by decide) rfl rfl]
      simp only [fillValue, scopeValue, dGet_nil, hy]
  · intro sig args kwargs pe k hsig
    exact extrasOf_sig sig args kwargs pe k hsig

/-- C6, witness: with an inherited frame binding `x=99` beneath F's frame and
the inner function's globals binding `x=5`, G still resolves `x` to F's
resolved `10`. -/
theorem claim_C6_witness :
    dGet (resolvedOf [⟨"x", PKind.posOrKw, Option.none⟩, ⟨"y", PKind.posOrKw, Option.none⟩]
        [("x", Value.int 5)] [] []
        (get_locals [[("x", Value.int 10), ("y", Value.int 20)], [("x", Value.int 99)]])
        [] []) "x" = some (Value.int 10) :=
  (claim_C6.2.1 [[("x", Value.int 99)]] [] [("x", Value.int 5)]).1

/-- C7: unresolved sentinel.  A declared parameter with no explicit argument,
no match in the inherited extras, no declared default and no match in any
scope-chain tier is bound to `None` and the invocation does not fail; a
caller-supplied explicit `None` yields the same resolved value, so the two
are indistinguishable. -/
theorem claim_C7 (sig : List Param) (fgRaw : Dict) (args : List Value)
    (kwargs cl cg pe : Dict) (p : Param)
    (hnodup : (sig.map Param.name).Nodup) (hp : p ∈ sig)
    (hk1 : p.kind ≠ PKind.varPos) (hk2 : p.kind ≠ PKind.varKw)
    (hkwnodup : dNodup kwargs) (hpenodup : dNodup pe)
    (harity : args.length ≤ maxPosCount sig)
    (hpos : dGet (posBind sig args) p.name = Option.none)
    (hkw : dGet kwargs p.name = Option.none)
    (hpe : dGet pe p.name = Option.none)
    (hdef : p.default = Option.none)
    (hcl : dGet cl p.name = Option.none)
    (hfg : dGet fgRaw p.name = Option.none)
    (hcg : dGet cg p.name = Option.none) :
    resolve sig fgRaw args kwargs cl cg pe =
      Except.ok ⟨resolvedOf sig fgRaw args kwargs cl cg pe,
        extrasOf sig args kwargs pe⟩ ∧
    dGet (resolvedOf sig fgRaw args kwargs cl cg pe) p.name = some Value.none ∧
    (∀ kwargs2 : Dict, dNodup kwargs2 → dGet kwargs2 p.name = some Value.none →
      dGet (resolvedOf sig fgRaw args kwargs2 cl cg pe) p.name = some Value.none) := by
  refine ⟨resolve_ok sig fgRaw args kwargs cl cg pe harity, ?_, ?_⟩
  · rw [resolvedOf_fill sig fgRaw args kwargs cl cg pe p hnodup hp hk1 hk2 hpos
      (dGet_mergedKwargs_none pe kwargs p.name hkwnodup hpe hkw)]
    have hfg' : dGet (filter_privates fgRaw) p.name = Option.none :=
      dGet_filter_privates_none fgRaw p.name hfg
    simp only [fillValue, scopeValue, hpe, hdef, hcl, hfg', hcg]
  · intro kwargs2 hn2 hkw2
    exact resolvedOf_kwExplicit sig fgRaw args kwargs2 cl cg pe p Value.none hp
      (dNodup_mergedKwargs pe kwargs2 hpenodup)
      (dGet_mergedKwargs_right pe kwargs2 p.name Value.none hn2 hkw2) hpos

/-- C7, witness: signature `(a)` with `a` found nowhere resolves to `None`
without an error, and an explicit `a=None` resolves identically. -/
theorem claim_C7_witness :
    resolve [⟨"a", PKind.posOrKw, Option.none⟩] [] [] [] [] [] [] =
      Except.ok ⟨resolvedOf [⟨"a", PKind.posOrKw, Option.none⟩] [] [] [] [] [] [],
        extrasOf [⟨"a", PKind.posOrKw, Option.none⟩] [] [] []⟩ ∧
    dGet (resolvedOf [⟨"a", PKind.posOrKw, Option.none⟩] [] [] [] [] [] []) "a" =
      some Value.none ∧
    dGet (resolvedOf [⟨"a", PKind.posOrKw, Option.none⟩] [] []
        [("a", Value.none)] [] [] []) "a" = some Value.none := by
  have h := claim_C7 [⟨"a", PKind.posOrKw, Option.none⟩] [] [] [] [] [] []
    ⟨"a", PKind.posOrKw, Option.none⟩
    (by decide) (List.mem_singleton.mpr rfl) (by decide) (by decide) (by decide)
    (by decide) (by decide) rfl rfl rfl rfl rfl rfl rfl
  exact ⟨h.1, h.2.1, h.2.2 [("a", Value.none)] (by decide) rfl⟩

/-- C8, counterexample.  The claim states the untyped CLI conversion order is
integer, then float, then literal passthrough, never producing a value of an
unrelated type.  On the input `"True"` both integer conversions and the float
conversion fail, but the `eval` step at cli.py line 40 — which the claim
omits — produces the boolean `True`, not the raw string. -/
theorem claim_C8_cex :
    convert_value "True" PType.empty = Value.bool true ∧
    Value.bool true ≠ Value.str "True" := by
  refine ⟨rfl, ?_⟩
  intro h
  exact Value.noConfusion h

/-- C8, amended.  For a parameter with no declared type, the conversion tries
in order: `int(s, 10)`; `int(s, 16)` when the string starts with `0x`;
`float(s)`; then `eval(s)` (whose result may be of an unrelated type, e.g. a
boolean); only when `eval` also fails does the result deterministically fall
back to the raw input string. -/
theorem claim_C8_amended (s : String)
    (h10 : pyInt s 10 = Option.none)
    (h16 : startsWith0x s = true → pyInt s 16 = Option.none)
    (hf : pyFloat s = Option.none) :
    convert_value s PType.empty =
      match evalPy s with
      | some v => v
      | Option.none => Value.str s := by
  by_cases hs : startsWith0x s
  · simp only [convert_value, h10, if_pos hs, h16 hs, hf]
  · simp only [convert_value, h10, if_neg hs, hf]

/-- C8, witness for the amended theorem: on `"abc@"` every conversion
(including `eval`, which raises a `SyntaxError` in Python) fails and the raw
string comes back. -/
theorem claim_C8_amended_witness :
    convert_value "abc@" PType.empty = Value.str "abc@" :=
  claim_C8_amended "abc@" rfl (fun h => absurd h (by decide)) rfl

/-- C9: private names are invisible to every implicit scope tier.  For a
parameter whose name starts with an underscore that is not supplied
positionally or by keyword and is not present in the inherited extras, the
resolved value is its declared default if any, else the `None` sentinel —
regardless of the contents of the caller frames' locals and globals and of
the function's own globals, because all three tiers are filtered of
underscore-prefixed keys. -/
theorem claim_C9 (sig : List Param) (fgRaw : Dict) (args : List Value)
    (kwargs : Dict) (lframes gframes : List Dict) (pe : Dict) (p : Param)
    (hpriv : is_private p.name = true)
    (hnodup : (sig.map Param.name).Nodup) (hp : p ∈ sig)
    (hk1 : p.kind ≠ PKind.varPos) (hk2 : p.kind ≠ PKind.varKw)
    (hkwnodup : dNodup kwargs)
    (hpos : dGet (posBind sig args) p.name = Option.none)
    (hkw : dGet kwargs p.name = Option.none)
    (hpe : dGet pe p.name = Option.none) :
    dGet (resolvedOf sig fgRaw args kwargs (get_locals lframes)
        (get_globals gframes) pe) p.name = some (p.default.getD Value.none) := by
  rw [resolvedOf_fill sig fgRaw args kwargs (get_locals lframes)
    (get_globals gframes) pe p hnodup hp hk1 hk2 hpos
    (dGet_mergedKwargs_none pe kwargs p.name hkwnodup hpe hkw)]
  have hcl := get_locals_private lframes p.name hpriv
  have hcg := get_globals_private gframes p.name hpriv
  have hfg := dGet_filter_privates_private fgRaw p.name hpriv
  simp only [fillValue, scopeValue, hpe, hcl, hcg, hfg]
  cases hd : p.default <;> simp [hd]

/-- C9, witness: parameter `_p` with `_p` bound in the function's globals,
a caller frame's locals and a caller frame's globals still resolves to the
`None` sentinel. -/
theorem claim_C9_witness :
    dGet (resolvedOf [⟨"_p", PKind.posOrKw, Option.none⟩] [("_p", Value.int 1)]
        [] [] (get_locals [[("_p", Value.int 2)]]) (get_globals [[("_p", Value.int 3)]])
        []) "_p" = some Value.none :=
  claim_C9 [⟨"_p", PKind.posOrKw, Option.none⟩] [("_p", Value.int 1)] [] []
    [[("_p", Value.int 2)]] [[("_p", Value.int 3)]] []
    ⟨"_p", PKind.posOrKw, Option.none⟩
    rfl (by decide) (List.mem_singleton.mpr rfl) (by decide) (by decide)
    (by decide) rfl rfl rfl

/-- C10: a parameter supplied both positionally and as a keyword of the same
name raises no error: the positional value wins, and the keyword value is
silently discarded — it is not recorded in the call's ExtraBindings and hence
is not forwarded to nested calls. -/
theorem claim_C10 (sig : List Param) (fgRaw : Dict) (args : List Value)
    (kwargs cl cg pe : Dict) (p : Param) (v w : Value)
    (hp : p ∈ sig)
    (harity : args.length ≤ maxPosCount sig)
    (hpos : dGet (posBind sig args) p.name = some v)
    (hkw : dGet kwargs p.name = some w) :
    resolve sig fgRaw args kwargs cl cg pe =
      Except.ok ⟨resolvedOf sig fgRaw args kwargs cl cg pe,
        extrasOf sig args kwargs pe⟩ ∧
    dGet (resolvedOf sig fgRaw args kwargs cl cg pe) p.name = some v ∧
    dGet (extrasOf sig args kwargs pe) p.name = Option.none :=
  ⟨resolve_ok sig fgRaw args kwargs cl cg pe harity,
    resolvedOf_posExplicit sig fgRaw args kwargs cl cg pe p v hpos,
    extrasOf_sig sig args kwargs pe p.name (sigHas_of_mem sig p hp)⟩

/-- C10, witness: `foo(a=...)` called as `foo(7, a=8)` resolves `a` to the
positional `7`, with no error and with empty forwarded extras for `a`. -/
theorem claim_C10_witness :
    resolve [⟨"a", PKind.posOrKw, Option.none⟩] [] [Value.int 7]
        [("a", Value.int 8)] [] [] [] =
      Except.ok ⟨resolvedOf [⟨"a", PKind.posOrKw, Option.none⟩] [] [Value.int 7]
          [("a", Value.int 8)] [] [] [],
        extrasOf [⟨"a", PKind.posOrKw, Option.none⟩] [Value.int 7]
          [("a", Value.int 8)] []⟩ ∧
    dGet (resolvedOf [⟨"a", PKind.posOrKw, Option.none⟩] [] [Value.int 7]
        [("a", Value.int 8)] [] [] []) "a" = some (Value.int 7) ∧
    dGet (extrasOf [⟨"a", PKind.posOrKw, Option.none⟩] [Value.int 7]
        [("a", Value.int 8)] []) "a" = Option.none :=
  claim_C10 [⟨"a", PKind.posOrKw, Option.none⟩] [] [Value.int 7]
    [("a", Value.int 8)] [] [] [] ⟨"a", PKind.posOrKw, Option.none⟩
    (Value.int 7) (Value.int 8) (List.mem_singleton.mpr rfl) (by decide) rfl rfl
